import Mathlib

/-!
Shallow embedding of the rustracing span module (src/span.rs): spans, span
contexts, baggage items, tags, the span builder (StartSpanOptions) with its
normalization and sampling logic, and the finished-span delivery channel.

Conventions of the embedding:
* SystemTime is modelled as Nat; the ambient current time is passed explicitly
  as a `now` argument where the code calls SystemTime::now().
* The mpsc delivery channel is modelled as an explicit Channel state holding
  the list of delivered FinishedSpans plus a closed flag (receiver gone);
  `Channel.send` on a closed channel leaves it unchanged and reports failure,
  and dropping a span discards that report, exactly as the code ignores the
  send result.
* The tracer is not materialized: its sampler, its span channel and the
  `T::from(CandidateSpan)` conversion are passed to `start` as explicit
  function arguments.
* Types whose defining file is not among the given sources (Tag/TagValue from
  tag.rs, Log from log.rs, the text-map carrier from carrier.rs) are modelled
  from the spec and marked as such in their doc comments.
-/

namespace Rustracing

/-- Modelled from the spec: tag.rs is not among the given sources.  TagValue
is the closed variant over String, Bool, Integer, Float; the Float payload is
kept opaque as its f64 bit pattern so that equality stays decidable. -/
inductive TagValue where
  | str (s : String)
  | boolean (b : Bool)
  | int (n : Int)
  | float (bits : Nat)
  deriving DecidableEq, Repr

/-- Modelled from the spec: a Tag is a name together with a TagValue. -/
structure Tag where
  name : String
  value : TagValue
  deriving DecidableEq, Repr

/-- Baggage item: a name/value string pair (src/span.rs, struct BaggageItem). -/
structure BaggageItem where
  name : String
  value : String
  deriving DecidableEq, Repr

/-- Modelled from the spec: log.rs is not among the given sources.  A Log is
an ordered set of structured fields with a timestamp. -/
structure Log where
  fields : List (String × String)
  time : Nat
  deriving DecidableEq, Repr

/-- Span reference (src/span.rs, enum SpanReference). -/
inductive SpanReference (T : Type) where
  | childOf (t : T)
  | followsFrom (t : T)
  deriving DecidableEq, Repr

/-- Span context: opaque state plus baggage items (src/span.rs, SpanContext). -/
structure SpanContext (T : Type) where
  state : T
  baggage_items : List BaggageItem
  deriving DecidableEq, Repr

/-- Finished span (src/span.rs, struct FinishedSpan). -/
structure FinishedSpan (T : Type) where
  operation_name : String
  start_time : Nat
  finish_time : Nat
  references : List (SpanReference T)
  tags : List Tag
  logs : List Log
  context : SpanContext T
  deriving DecidableEq, Repr

/-- The finished-span mpsc channel, as the list of messages delivered so far
plus a flag recording that the receiver is gone. -/
structure Channel (T : Type) where
  msgs : List (FinishedSpan T)
  closed : Bool
  deriving DecidableEq, Repr

/-- mpsc send: appends the message when the receiver is alive; reports failure
(second component false) and leaves the channel unchanged when it is closed. -/
def Channel.send {T : Type} (ch : Channel T) (m : FinishedSpan T) :
    Channel T × Bool :=
  if ch.closed then (ch, false) else ({ ch with msgs := ch.msgs ++ [m] }, true)

/-- Inner state of an active span (src/span.rs, struct SpanInner).  The
span_tx handle is not stored here: the channel is passed explicitly to
`Span.drop`. -/
structure SpanInner (T : Type) where
  operation_name : String
  start_time : Nat
  finish_time : Option Nat
  references : List (SpanReference T)
  tags : List Tag
  logs : List Log
  context : SpanContext T
  deriving DecidableEq, Repr

/-- A span: at most one SpanInner (src/span.rs, `pub struct Span<T>(Option<SpanInner<T>>)`).
`inner = none` is a disabled (unsampled) span. -/
structure Span (T : Type) where
  inner : Option (SpanInner T)
  deriving DecidableEq, Repr

variable {T : Type}

/-- src/span.rs, Span::is_sampled. -/
def Span.is_sampled (s : Span T) : Bool :=
  s.inner.isSome

/-- src/span.rs, Span::context. -/
def Span.context (s : Span T) : Option (SpanContext T) :=
  s.inner.map (fun x => x.context)

/-- src/span.rs, Span::set_operation_name (the FnOnce producing the name is
already evaluated to a String). -/
def Span.set_operation_name (n : String) (s : Span T) : Span T :=
  match s.inner with
  | none => s
  | some i => ⟨some { i with operation_name := n }⟩

/-- src/span.rs, Span::set_finish_time. -/
def Span.set_finish_time (t : Nat) (s : Span T) : Span T :=
  match s.inner with
  | none => s
  | some i => ⟨some { i with finish_time := some t }⟩

/-- src/span.rs, Span::set_tag: retain all tags of a different name, then
push the new tag. -/
def Span.set_tag (tag : Tag) (s : Span T) : Span T :=
  match s.inner with
  | none => s
  | some i =>
      ⟨some { i with tags := i.tags.filter (fun x => x.name ≠ tag.name) ++ [tag] }⟩

/-- src/span.rs, Span::set_baggage_item: retain all items of a different
name, then push the new item. -/
def Span.set_baggage_item (item : BaggageItem) (s : Span T) : Span T :=
  match s.inner with
  | none => s
  | some i =>
      ⟨some { i with context :=
        { i.context with baggage_items :=
            i.context.baggage_items.filter (fun x => x.name ≠ item.name) ++ [item] } }⟩

/-- src/span.rs, Span::get_baggage_item. -/
def Span.get_baggage_item (name : String) (s : Span T) : Option BaggageItem :=
  match s.inner with
  | some i => i.context.baggage_items.find? (fun x => x.name = name)
  | none => none

/-- src/span.rs, Span::log.  The LogBuilder closure is already evaluated to
its result: `LogBuilder::finish` yields an Option Log, pushed when present. -/
def Span.log (l : Option Log) (s : Span T) : Span T :=
  match s.inner with
  | none => s
  | some i =>
      match l with
      | none => s
      | some lg => ⟨some { i with logs := i.logs ++ [lg] }⟩

/-- src/span.rs, Span::new. -/
def Span.new (operation_name : String) (start_time : Nat)
    (references : List (SpanReference T)) (tags : List Tag) (state : T)
    (baggage_items : List BaggageItem) : Span T :=
  ⟨some { operation_name := operation_name
          start_time := start_time
          finish_time := none
          references := references
          tags := tags
          logs := []
          context := { state := state, baggage_items := baggage_items } }⟩

/-- The FinishedSpan built by `impl Drop for Span` from the inner state, with
the finish time defaulting to now when never set. -/
def FinishedSpan.ofInner (now : Nat) (i : SpanInner T) : FinishedSpan T :=
  { operation_name := i.operation_name
    start_time := i.start_time
    finish_time := i.finish_time.getD now
    references := i.references
    tags := i.tags
    logs := i.logs
    context := i.context }

/-- src/span.rs, `impl Drop for Span`: an active span is converted to a
FinishedSpan and sent on the channel, the send result being discarded; a
disabled span does nothing. -/
def Span.drop (now : Nat) (s : Span T) (ch : Channel T) : Channel T :=
  match s.inner with
  | none => ch
  | some i => (ch.send (FinishedSpan.ofInner now i)).1

/-- src/span.rs, struct CandidateSpan (the read-only view handed to the
sampler). -/
structure CandidateSpan (T : Type) where
  tags : List Tag
  references : List (SpanReference T)
  baggage_items : List BaggageItem
  deriving DecidableEq, Repr

/-- src/span.rs, struct StartSpanOptions, without the tracer borrow (the
sampler and channel of the tracer are passed explicitly where needed). -/
structure StartSpanOptions (T : Type) where
  operation_name : String
  start_time : Option Nat
  tags : List Tag
  references : List (SpanReference T)
  baggage_items : List BaggageItem
  deriving DecidableEq, Repr

/-- src/span.rs, StartSpanOptions::new. -/
def StartSpanOptions.new (T : Type) (operation_name : String) :
    StartSpanOptions T :=
  { operation_name := operation_name
    start_time := none
    tags := []
    references := []
    baggage_items := [] }

/-- src/span.rs, StartSpanOptions::start_time (renamed to avoid clashing with
the field of the same name). -/
def StartSpanOptions.with_start_time (t : Nat) (o : StartSpanOptions T) :
    StartSpanOptions T :=
  { o with start_time := some t }

/-- src/span.rs, StartSpanOptions::tag. -/
def StartSpanOptions.tag (t : Tag) (o : StartSpanOptions T) :
    StartSpanOptions T :=
  { o with tags := o.tags ++ [t] }

/-- src/span.rs, StartSpanOptions::child_of.  The `MaybeAsRef` argument is
already resolved to an Option (SpanContext T): a disabled span yields none. -/
def StartSpanOptions.child_of (c : Option (SpanContext T))
    (o : StartSpanOptions T) : StartSpanOptions T :=
  match c with
  | none => o
  | some ctx =>
      { o with
        references := o.references ++ [SpanReference.childOf ctx.state]
        baggage_items := o.baggage_items ++ ctx.baggage_items }

/-- src/span.rs, StartSpanOptions::follows_from. -/
def StartSpanOptions.follows_from (c : Option (SpanContext T))
    (o : StartSpanOptions T) : StartSpanOptions T :=
  match c with
  | none => o
  | some ctx =>
      { o with
        references := o.references ++ [SpanReference.followsFrom ctx.state]
        baggage_items := o.baggage_items ++ ctx.baggage_items }

/-- Boolean lexicographic order on character lists, mirroring the byte-wise
byte-wise `Ord` of str in Rust (UTF-8 byte order coincides with code-point order). -/
def charListLe : List Char → List Char → Bool
  | [], _ => true
  | _ :: _, [] => false
  | a :: as, b :: bs =>
      if a < b then true
      else if b < a then false
      else charListLe as bs

/-- Boolean `a <= b` on strings, the order of `a.name().cmp(b.name())`. -/
def strLe (a b : String) : Bool :=
  charListLe a.data b.data

/-- Boolean strict `a < b` on strings. -/
def strLt (a b : String) : Bool :=
  strLe a b && !(strLe b a)

/-- Insertion step of a stable ascending sort on the key: the new element
goes after every element whose key is ≤ its key. -/
def insertByKey {α : Type} (key : α → String) (x : α) : List α → List α
  | [] => [x]
  | y :: ys =>
      if strLe (key y) (key x) then y :: insertByKey key x ys else x :: y :: ys

/-- Stable sort by key, processing elements left to right: models the stable
`sort_by(|a, b| a.name().cmp(b.name()))` of Vec::sort_by. -/
def sortByKey {α : Type} (key : α → String) (xs : List α) : List α :=
  xs.foldl (fun acc x => insertByKey key x acc) []

/-- Tail of Vec::dedup_by with key equality: `prev` is the last element kept;
every following element equal in key to `prev` is removed, and a differing
element is kept and becomes the new `prev`. -/
def dedupFrom {α : Type} (key : α → String) (prev : α) : List α → List α
  | [] => []
  | y :: ys =>
      if key y = key prev then dedupFrom key prev ys
      else y :: dedupFrom key y ys

/-- Vec::dedup_by with key equality: within every run of consecutive elements
of equal key, only the first is kept. -/
def dedupByKey {α : Type} (key : α → String) : List α → List α
  | [] => []
  | x :: xs => x :: dedupFrom key x xs

/-- The normalization pipeline of StartSpanOptions::normalize applied to one
list: reverse, stable-sort by key, dedup by key. -/
def normalizeByKey {α : Type} (key : α → String) (xs : List α) : List α :=
  dedupByKey key (sortByKey key xs.reverse)

/-- src/span.rs, StartSpanOptions::normalize. -/
def StartSpanOptions.normalize (o : StartSpanOptions T) : StartSpanOptions T :=
  { o with
    tags := normalizeByKey Tag.name o.tags
    baggage_items := normalizeByKey BaggageItem.name o.baggage_items }

/-- src/span.rs, StartSpanOptions::span. -/
def StartSpanOptions.span (o : StartSpanOptions T) : CandidateSpan T :=
  { tags := o.tags, references := o.references, baggage_items := o.baggage_items }

/-- src/span.rs, StartSpanOptions::is_sampled: an Integer-valued
sampling.priority tag decides by `n > 0`; in every other case the
sampler decides. -/
def StartSpanOptions.is_sampled (sampler : CandidateSpan T → Bool)
    (o : StartSpanOptions T) : Bool :=
  match (o.tags.find? (fun t => t.name = "sampling.priority")).map Tag.value with
  | some (TagValue.int n) => 0 < n
  | _ => sampler o.span

/-- src/span.rs, StartSpanOptions::start.  fromCandidate stands for
`T::from(CandidateSpan)`, sampler for the pluggable sampler of the tracer, now for
SystemTime::now(). -/
def StartSpanOptions.start (fromCandidate : CandidateSpan T → T)
    (sampler : CandidateSpan T → Bool) (now : Nat)
    (o : StartSpanOptions T) : Span T :=
  let o2 := o.normalize
  if o2.is_sampled sampler then
    Span.new o2.operation_name (o2.start_time.getD now) o2.references o2.tags
      (fromCandidate o2.span) o2.baggage_items
  else ⟨none⟩

/-- src/span.rs, StartSpanOptions::start_with_context. -/
def StartSpanOptions.start_with_context (context : T)
    (sampler : CandidateSpan T → Bool) (now : Nat)
    (o : StartSpanOptions T) : Span T :=
  let o2 := o.normalize
  if o2.is_sampled sampler then
    Span.new o2.operation_name (o2.start_time.getD now) o2.references o2.tags
      context o2.baggage_items
  else ⟨none⟩

/-- The mutating operations of an active Span, reified so that arbitrary
call sequences can be quantified over. -/
inductive SpanOp (T : Type) where
  | setOperationName (n : String)
  | setFinishTime (t : Nat)
  | setTag (t : Tag)
  | setBaggageItem (b : BaggageItem)
  | logOp (l : Option Log)

/-- Interpretation of one reified span operation. -/
def applySpanOp (op : SpanOp T) (s : Span T) : Span T :=
  match op with
  | SpanOp.setOperationName n => s.set_operation_name n
  | SpanOp.setFinishTime t => s.set_finish_time t
  | SpanOp.setTag t => s.set_tag t
  | SpanOp.setBaggageItem b => s.set_baggage_item b
  | SpanOp.logOp l => s.log l

/-- Interpretation of a sequence of span operations. -/
def applySpanOps (ops : List (SpanOp T)) (s : Span T) : Span T :=
  ops.foldl (fun s op => applySpanOp op s) s

/-- The configuring operations of a builder, reified; each step carries the
delivery channel alongside so that absence of channel effects is expressible. -/
inductive BuilderOp (T : Type) where
  | tagOp (t : Tag)
  | startTimeOp (t : Nat)
  | childOfOp (c : Option (SpanContext T))
  | followsFromOp (c : Option (SpanContext T))

/-- Interpretation of one reified builder operation on builder plus channel:
none of the builder methods touches the channel. -/
def applyBuilderOp (op : BuilderOp T) (st : StartSpanOptions T × Channel T) :
    StartSpanOptions T × Channel T :=
  match op with
  | BuilderOp.tagOp t => (st.1.tag t, st.2)
  | BuilderOp.startTimeOp t => (st.1.with_start_time t, st.2)
  | BuilderOp.childOfOp c => (st.1.child_of c, st.2)
  | BuilderOp.followsFromOp c => (st.1.follows_from c, st.2)

/-- Interpretation of a sequence of builder operations. -/
def runBuilder (ops : List (BuilderOp T)) (o : StartSpanOptions T)
    (ch : Channel T) : StartSpanOptions T × Channel T :=
  ops.foldl (fun st op => applyBuilderOp op st) (o, ch)

/-- Name-uniqueness of a baggage list: no two items share a name. -/
def uniqueNames (l : List BaggageItem) : Prop :=
  List.Pairwise (fun a b => a.name ≠ b.name) l

/-- The claimed storage invariant of baggage items: strictly ascending by
name, which is sorted-by-name with duplicates removed. -/
def sortedUniqueByName (l : List BaggageItem) : Prop :=
  List.Pairwise (fun a b => strLt a.name b.name = true) l

/-- Modelled from the spec: carrier.rs is not among the given sources.  A
text map carrier is a generic string-keyed map, modelled as an association
list; set replaces the value of an existing key or appends a new pair. -/
def tmSet (c : List (String × String)) (k v : String) :
    List (String × String) :=
  if c.any (fun p => p.1 = k) then
    c.map (fun p => if p.1 = k then (k, v) else p)
  else c ++ [(k, v)]

/-- Modelled from the spec: get-by-key on a text map carrier, the value of
the first pair holding the key. -/
def tmGet (c : List (String × String)) (k : String) : Option String :=
  (c.find? (fun p => p.1 = k)).map (fun p => p.2)

/-- Modelled from the spec: the carrier key holding the opaque state. -/
def stateKey : String := "ot-tracer-state"

/-- Modelled from the spec: the namespace put before baggage names in carrier
keys, so that baggage keys cannot collide with the state key. -/
def bagNs : String := "ot-baggage-"

/-- Modelled from the spec: the carrier key of one baggage item. -/
def bagKey (n : String) : String :=
  String.mk (bagNs.data ++ n.data)

/-- Modelled from the spec: recognize a namespaced baggage key and recover
the item name; any other key yields none. -/
def bagKeyInv (k : String) : Option String :=
  if k.data.take bagNs.data.length = bagNs.data then
    some (String.mk (k.data.drop bagNs.data.length))
  else none

/-- Modelled from the spec: the text-map carrier capability of a state type
(the InjectToTextMap and ExtractFromTextMap implementations), reduced to the
string codec of the opaque state. -/
structure TextMapCodec (T : Type) where
  encode : T → String
  decode : String → Option T

/-- Modelled from the spec: SpanContext::inject_to_text_map writes one pair
for the opaque state and one namespaced pair per baggage item into the
carrier. -/
def SpanContext.inject_to_text_map (codec : TextMapCodec T)
    (ctx : SpanContext T) (carrier : List (String × String)) :
    List (String × String) :=
  ctx.baggage_items.foldl (fun c item => tmSet c (bagKey item.name) item.value)
    (tmSet carrier stateKey (codec.encode ctx.state))

/-- Modelled from the spec: SpanContext::extract_from_text_map reads the
inverse, returning none (absence) when the carrier holds no recognizable
state; baggage items are collected from the namespaced keys. -/
def SpanContext.extract_from_text_map (codec : TextMapCodec T)
    (carrier : List (String × String)) : Option (SpanContext T) :=
  match tmGet carrier stateKey with
  | none => none
  | some s =>
      (codec.decode s).map (fun st =>
        { state := st
          baggage_items := carrier.filterMap (fun p =>
            (bagKeyInv p.1).map (fun n => BaggageItem.mk n p.2)) })

/-! Order facts about the boolean lexicographic comparison. -/

theorem charListLe_refl (l : List Char) : charListLe l l = true := by
  induction l with
  | nil => rfl
  | cons a as ih =>
      unfold charListLe
      rw [if_neg (lt_irrefl a), if_neg (lt_irrefl a)]
      exact ih

theorem charListLe_total (a : List Char) :
    ∀ b : List Char, charListLe a b = true ∨ charListLe b a = true := by
  induction a with
  | nil => intro b; left; rfl
  | cons x xs ih =>
      intro b
      cases b with
      | nil => right; rfl
      | cons y ys =>
          by_cases hxy : x < y
          · left; simp [charListLe, hxy]
          · by_cases hyx : y < x
            · right; simp [charListLe, hyx]
            · rcases ih ys with h | h
              · left; simp [charListLe, hxy, hyx, h]
              · right; simp [charListLe, hxy, hyx, h]

theorem charListLe_antisymm :
    ∀ {a b : List Char}, charListLe a b = true → charListLe b a = true → a = b := by
  intro a
  induction a with
  | nil =>
      intro b h1 h2
      cases b with
      | nil => rfl
      | cons y ys => simp [charListLe] at h2
  | cons x xs ih =>
      intro b h1 h2
      cases b with
      | nil => simp [charListLe] at h1
      | cons y ys =>
          by_cases hxy : x < y
          · simp [charListLe, hxy, asymm hxy] at h2
          · by_cases hyx : y < x
            · simp [charListLe, hxy, hyx] at h1
            · have hx : x = y := le_antisymm (not_lt.mp hyx) (not_lt.mp hxy)
              simp only [charListLe, if_neg hxy, if_neg hyx] at h1
              simp only [charListLe, if_neg hyx, if_neg hxy] at h2
              rw [hx, ih h1 h2]

theorem charListLe_trans :
    ∀ {a b c : List Char}, charListLe a b = true → charListLe b c = true →
      charListLe a c = true := by
  intro a
  induction a with
  | nil => intro b c _ _; rfl
  | cons x xs ih =>
      intro b c h1 h2
      cases b with
      | nil => simp [charListLe] at h1
      | cons y ys =>
          cases c with
          | nil => simp [charListLe] at h2
          | cons z zs =>
              by_cases hxy : x < y
              · by_cases hyz : y < z
                · simp [charListLe, lt_trans hxy hyz]
                · by_cases hzy : z < y
                  · simp [charListLe, hyz, hzy] at h2
                  · have : y = z := le_antisymm (not_lt.mp hzy) (not_lt.mp hyz)
                    subst this
                    simp [charListLe, hxy]
              · by_cases hyx : y < x
                · simp [charListLe, hxy, hyx] at h1
                · have hx : x = y := le_antisymm (not_lt.mp hyx) (not_lt.mp hxy)
                  subst hx
                  simp only [charListLe, if_neg hxy, if_neg hyx] at h1
                  by_cases hxz : x < z
                  · simp [charListLe, hxz]
                  · by_cases hzx : z < x
                    · simp [charListLe, hxz, hzx] at h2
                    · simp only [charListLe, if_neg hxz, if_neg hzx] at h2 ⊢
                      exact ih h1 h2

theorem data_inj : ∀ {a b : String}, a.data = b.data → a = b := by
  intro a b h
  cases a
  cases b
  exact congrArg String.mk h

theorem strLe_refl (s : String) : strLe s s = true :=
  charListLe_refl s.data

theorem strLe_total (a b : String) : strLe a b = true ∨ strLe b a = true :=
  charListLe_total a.data b.data

theorem strLe_antisymm {a b : String} (h1 : strLe a b = true)
    (h2 : strLe b a = true) : a = b :=
  data_inj (charListLe_antisymm h1 h2)

theorem strLe_trans {a b c : String} (h1 : strLe a b = true)
    (h2 : strLe b c = true) : strLe a c = true :=
  charListLe_trans h1 h2

theorem strLe_of_not_strLe {a b : String} (h : ¬ strLe a b = true) :
    strLe b a = true := by
  rcases strLe_total a b with h1 | h1
  · exact absurd h1 h
  · exact h1

theorem strLt_iff {a b : String} :
    strLt a b = true ↔ (strLe a b = true ∧ ¬ strLe b a = true) := by
  simp [strLt]

/-! Sortedness and filter characterization of the normalization pipeline. -/

/-- Ascending-by-key sortedness of a list. -/
def SortedByKey {α : Type} (key : α → String) (l : List α) : Prop :=
  List.Pairwise (fun a b => strLe (key a) (key b) = true) l

theorem mem_insertByKey {α : Type} (key : α → String) (x : α) :
    ∀ {l : List α} {a : α}, a ∈ insertByKey key x l → a = x ∨ a ∈ l := by
  intro l
  induction l with
  | nil =>
      intro a ha
      simp only [insertByKey, List.mem_singleton] at ha
      exact Or.inl ha
  | cons y ys ih =>
      intro a ha
      unfold insertByKey at ha
      by_cases h : strLe (key y) (key x) = true
      · rw [if_pos h] at ha
        rcases List.mem_cons.mp ha with h1 | h1
        · exact Or.inr (List.mem_cons.mpr (Or.inl h1))
        · rcases ih h1 with h2 | h2
          · exact Or.inl h2
          · exact Or.inr (List.mem_cons.mpr (Or.inr h2))
      · rw [if_neg h] at ha
        exact List.mem_cons.mp ha

theorem sortedByKey_insertByKey {α : Type} (key : α → String) (x : α) :
    ∀ {l : List α}, SortedByKey key l → SortedByKey key (insertByKey key x l) := by
  intro l
  induction l with
  | nil =>
      intro _
      simp [insertByKey, SortedByKey]
  | cons y ys ih =>
      intro h
      rcases List.pairwise_cons.mp h with ⟨hy, hys⟩
      unfold insertByKey
      by_cases hle : strLe (key y) (key x) = true
      · rw [if_pos hle]
        refine List.pairwise_cons.mpr ⟨?_, ih hys⟩
        intro z hz
        rcases mem_insertByKey key x hz with h1 | h1
        · rw [h1]; exact hle
        · exact hy z h1
      · rw [if_neg hle]
        refine List.pairwise_cons.mpr ⟨?_, h⟩
        intro z hz
        rcases List.mem_cons.mp hz with h1 | h1
        · rw [h1]; exact strLe_of_not_strLe hle
        · exact strLe_trans (strLe_of_not_strLe hle) (hy z h1)

theorem sortedByKey_foldl_insertByKey {α : Type} (key : α → String) :
    ∀ (xs acc : List α), SortedByKey key acc →
      SortedByKey key (xs.foldl (fun acc x => insertByKey key x acc) acc) := by
  intro xs
  induction xs with
  | nil => intro acc h; exact h
  | cons x xs ih =>
      intro acc h
      exact ih _ (sortedByKey_insertByKey key x h)

theorem sortedByKey_sortByKey {α : Type} (key : α → String) (xs : List α) :
    SortedByKey key (sortByKey key xs) :=
  sortedByKey_foldl_insertByKey key xs [] List.Pairwise.nil

theorem filter_insertByKey {α : Type} (key : α → String) (x : α) (n : String) :
    ∀ {l : List α}, SortedByKey key l →
      (insertByKey key x l).filter (fun a => key a = n)
        = if key x = n then l.filter (fun a => key a = n) ++ [x]
          else l.filter (fun a => key a = n) := by
  intro l
  induction l with
  | nil =>
      intro _
      by_cases hx : key x = n
      · simp [insertByKey, hx]
      · simp [insertByKey, hx]
  | cons y ys ih =>
      intro h
      rcases List.pairwise_cons.mp h with ⟨hy, hys⟩
      have ihys := ih hys
      unfold insertByKey
      by_cases hle : strLe (key y) (key x) = true
      · rw [if_pos hle]
        by_cases hx : key x = n
        · rw [if_pos hx] at ihys ⊢
          by_cases hyn : key y = n
          · simp [List.filter_cons, hyn, ihys]
          · simp [List.filter_cons, hyn, ihys]
        · rw [if_neg hx] at ihys ⊢
          by_cases hyn : key y = n
          · simp [List.filter_cons, hyn, ihys]
          · simp [List.filter_cons, hyn, ihys]
      · rw [if_neg hle]
        by_cases hx : key x = n
        · rw [if_pos hx]
          have hnil : (y :: ys).filter (fun a => key a = n) = [] := by
            rw [List.filter_eq_nil_iff]
            intro z hz
            simp only [decide_eq_true_eq]
            intro hzn
            rcases List.mem_cons.mp hz with h1 | h1
            · apply hle
              rw [h1] at hzn
              rw [hzn, ← hx]
              exact strLe_refl _
            · apply hle
              have hyz := hy z h1
              rw [hzn, ← hx] at hyz
              exact hyz
          simp [List.filter_cons, hnil, hx]
        · rw [if_neg hx]
          simp [List.filter_cons, hx]

theorem filter_foldl_insertByKey {α : Type} (key : α → String) (n : String) :
    ∀ (xs acc : List α), SortedByKey key acc →
      (xs.foldl (fun acc x => insertByKey key x acc) acc).filter
          (fun a => key a = n)
        = acc.filter (fun a => key a = n) ++ xs.filter (fun a => key a = n) := by
  intro xs
  induction xs with
  | nil => intro acc h; simp
  | cons x xs ih =>
      intro acc h
      simp only [List.foldl_cons]
      rw [ih _ (sortedByKey_insertByKey key x h),
          filter_insertByKey key x n h]
      by_cases hx : key x = n
      · rw [if_pos hx]
        simp [List.filter_cons, hx]
      · rw [if_neg hx]
        simp [List.filter_cons, hx]

theorem filter_sortByKey {α : Type} (key : α → String) (n : String)
    (xs : List α) :
    (sortByKey key xs).filter (fun a => key a = n)
      = xs.filter (fun a => key a = n) := by
  have h := filter_foldl_insertByKey key n xs [] List.Pairwise.nil
  simpa [sortByKey] using h

theorem filter_dedupFrom {α : Type} (key : α → String) (n : String) :
    ∀ (l : List α) (prev : α), SortedByKey key (prev :: l) →
      (dedupFrom key prev l).filter (fun a => key a = n)
        = if key prev = n then []
          else (l.filter (fun a => key a = n)).take 1 := by
  intro l
  induction l with
  | nil =>
      intro prev _
      by_cases hp : key prev = n
      · simp [dedupFrom, hp]
      · simp [dedupFrom, hp]
  | cons y ys ih =>
      intro prev h
      rcases List.pairwise_cons.mp h with ⟨hprev, hyys⟩
      rcases List.pairwise_cons.mp hyys with ⟨hy, hys⟩
      unfold dedupFrom
      by_cases heq : key y = key prev
      · rw [if_pos heq]
        have hsorted : SortedByKey key (prev :: ys) := by
          refine List.pairwise_cons.mpr ⟨?_, hys⟩
          intro z hz
          exact hprev z (List.mem_cons.mpr (Or.inr hz))
        rw [ih prev hsorted]
        by_cases hp : key prev = n
        · rw [if_pos hp, if_pos hp]
        · rw [if_neg hp, if_neg hp]
          have hyn : ¬ key y = n := by rw [heq]; exact hp
          simp [List.filter_cons, hyn]
      · rw [if_neg heq]
        have ihy := ih y hyys
        by_cases hp : key prev = n
        · rw [if_pos hp]
          have hyn : ¬ key y = n := by
            intro hc
            exact heq (hc.trans hp.symm)
          have hysnil : ys.filter (fun a => key a = n) = [] := by
            rw [List.filter_eq_nil_iff]
            intro z hz
            simp only [decide_eq_true_eq]
            intro hzn
            have h1 : strLe (key y) (key z) = true := hy z hz
            have h2 : strLe (key prev) (key y) = true :=
              hprev y (List.mem_cons.mpr (Or.inl rfl))
            rw [hzn, ← hp] at h1
            exact heq (strLe_antisymm h1 h2)
          rw [if_neg hyn] at ihy
          simp [List.filter_cons, hyn, ihy, hysnil]
        · rw [if_neg hp]
          by_cases hyn : key y = n
          · rw [if_pos hyn] at ihy
            simp [List.filter_cons, hyn, ihy]
          · rw [if_neg hyn] at ihy
            simp [List.filter_cons, hyn, ihy]

theorem filter_dedupByKey {α : Type} (key : α → String) (n : String) :
    ∀ {l : List α}, SortedByKey key l →
      (dedupByKey key l).filter (fun a => key a = n)
        = (l.filter (fun a => key a = n)).take 1 := by
  intro l h
  cases l with
  | nil => rfl
  | cons x xs =>
      unfold dedupByKey
      rw [List.filter_cons]
      by_cases hx : key x = n
      · have := filter_dedupFrom key n xs x h
        rw [if_pos hx] at this
        simp [hx, this, List.filter_cons]
      · have := filter_dedupFrom key n xs x h
        rw [if_neg hx] at this
        simp [hx, this, List.filter_cons]

theorem filter_normalizeByKey {α : Type} (key : α → String) (n : String)
    (xs : List α) :
    (normalizeByKey key xs).filter (fun a => key a = n)
      = (xs.reverse.filter (fun a => key a = n)).take 1 := by
  unfold normalizeByKey
  rw [filter_dedupByKey key n (sortedByKey_sortByKey key xs.reverse),
      filter_sortByKey key n xs.reverse]

theorem find_eq_head_filter {α : Type} (p : α → Bool) :
    ∀ l : List α, l.find? p = (l.filter p).head? := by
  intro l
  induction l with
  | nil => rfl
  | cons x xs ih =>
      by_cases hx : p x = true
      · rw [List.find?_cons_of_pos _ hx, List.filter_cons_of_pos hx]
        rfl
      · rw [List.find?_cons_of_neg _ (by simpa using hx),
            List.filter_cons_of_neg (by simpa using hx), ih]

theorem head_take_one {α : Type} (l : List α) : (l.take 1).head? = l.head? := by
  cases l <;> rfl

theorem take_one_eq_toList_find {α : Type} (p : α → Bool) (l : List α) :
    (l.filter p).take 1 = (l.find? p).toList := by
  rw [find_eq_head_filter]
  cases l.filter p <;> rfl

theorem find_normalizeByKey {α : Type} (key : α → String) (n : String)
    (xs : List α) :
    (normalizeByKey key xs).find? (fun a => key a = n)
      = xs.reverse.find? (fun a => key a = n) := by
  rw [find_eq_head_filter, find_eq_head_filter, filter_normalizeByKey,
      head_take_one]

theorem find_eq_of_mem_normalizeByKey {α : Type} (key : α → String)
    {xs : List α} {t : α} (h : t ∈ normalizeByKey key xs) :
    (normalizeByKey key xs).find? (fun a => key a = key t) = some t := by
  have hf := filter_normalizeByKey key (key t) xs
  have hmem : t ∈ (normalizeByKey key xs).filter (fun a => key a = key t) :=
    List.mem_filter.mpr ⟨h, by simp⟩
  have hlen : ((normalizeByKey key xs).filter
      (fun a => key a = key t)).length ≤ 1 := by
    rw [hf, List.length_take]
    exact min_le_left 1 _
  rw [find_eq_head_filter]
  cases hF : (normalizeByKey key xs).filter (fun a => key a = key t) with
  | nil => rw [hF] at hmem; cases hmem
  | cons a tail =>
      rw [hF] at hmem hlen
      have htail : tail = [] := by
        cases tail with
        | nil => rfl
        | cons b tb => simp at hlen
      subst htail
      have ht : t = a := by simpa using hmem
      rw [ht]
      rfl

/-! Strict sortedness of the dedup output. -/

theorem strLt_of_le_ne {a b : String} (h1 : strLe a b = true) (h2 : a ≠ b) :
    strLt a b = true := by
  rw [strLt_iff]
  exact ⟨h1, fun hc => h2 (strLe_antisymm h1 hc)⟩

theorem dedupFrom_strict {α : Type} (key : α → String) :
    ∀ (l : List α) (prev : α), SortedByKey key (prev :: l) →
      List.Pairwise (fun a b => strLt (key a) (key b) = true)
          (dedupFrom key prev l)
        ∧ ∀ z ∈ dedupFrom key prev l, strLt (key prev) (key z) = true := by
  intro l
  induction l with
  | nil =>
      intro prev _
      exact ⟨List.Pairwise.nil, fun z hz => absurd hz (List.not_mem_nil z)⟩
  | cons y ys ih =>
      intro prev h
      rcases List.pairwise_cons.mp h with ⟨hprev, hyys⟩
      rcases List.pairwise_cons.mp hyys with ⟨hy, hys⟩
      unfold dedupFrom
      by_cases heq : key y = key prev
      · rw [if_pos heq]
        apply ih prev
        refine List.pairwise_cons.mpr ⟨?_, hys⟩
        intro z hz
        exact hprev z (List.mem_cons.mpr (Or.inr hz))
      · rw [if_neg heq]
        have ihy := ih y hyys
        have hpy : strLt (key prev) (key y) = true := by
          apply strLt_of_le_ne (hprev y (List.mem_cons.mpr (Or.inl rfl)))
          intro hc
          exact heq hc.symm
        constructor
        · exact List.pairwise_cons.mpr ⟨fun z hz => ihy.2 z hz, ihy.1⟩
        · intro z hz
          rcases List.mem_cons.mp hz with h1 | h1
          · rw [h1]; exact hpy
          · have hyz := ihy.2 z h1
            rw [strLt_iff] at hpy hyz ⊢
            refine ⟨strLe_trans hpy.1 hyz.1, ?_⟩
            intro hc
            exact hyz.2 (strLe_trans hc hpy.1)

theorem strict_dedupByKey {α : Type} (key : α → String) {l : List α}
    (h : SortedByKey key l) :
    List.Pairwise (fun a b => strLt (key a) (key b) = true)
      (dedupByKey key l) := by
  cases l with
  | nil => exact List.Pairwise.nil
  | cons x xs =>
      have hd := dedupFrom_strict key xs x h
      exact List.pairwise_cons.mpr ⟨fun z hz => hd.2 z hz, hd.1⟩

theorem strict_normalizeByKey {α : Type} (key : α → String) (xs : List α) :
    List.Pairwise (fun a b => strLt (key a) (key b) = true)
      (normalizeByKey key xs) :=
  strict_dedupByKey key (sortedByKey_sortByKey key xs.reverse)

/-! Characterization of iterated remove-then-append updates (set_tag and
set_baggage_item). -/

theorem take_one_append {α : Type} (A B : List α) (h : A ≠ []) :
    (A ++ B).take 1 = A.take 1 := by
  cases A with
  | nil => exact absurd rfl h
  | cons a as => rfl

theorem filter_ne_then_eq {α : Type} (key : α → String) {n m : String}
    (hnm : n ≠ m) (l : List α) :
    (l.filter (fun y => key y ≠ m)).filter (fun a => key a = n)
      = l.filter (fun a => key a = n) := by
  induction l with
  | nil => rfl
  | cons a as ih =>
      by_cases ham : key a = m
      · have han : ¬ key a = n := by rw [ham]; exact fun h => hnm h.symm
        rw [List.filter_cons_of_neg (by simpa using ham),
            List.filter_cons_of_neg (by simpa using han), ih]
      · rw [List.filter_cons_of_pos (by simpa using ham)]
        by_cases han : key a = n
        · rw [List.filter_cons_of_pos (by simpa using han),
              List.filter_cons_of_pos (by simpa using han), ih]
        · rw [List.filter_cons_of_neg (by simpa using han),
              List.filter_cons_of_neg (by simpa using han), ih]

theorem filter_foldl_upsert {α : Type} (key : α → String) (n : String) :
    ∀ (cs l : List α),
      (cs.foldl (fun acc x => acc.filter (fun y => key y ≠ key x) ++ [x])
          l).filter (fun a => key a = n)
        = if cs.any (fun x => key x = n)
          then (cs.reverse.filter (fun a => key a = n)).take 1
          else l.filter (fun a => key a = n) := by
  intro cs
  induction cs with
  | nil => intro l; simp
  | cons c cs ih =>
      intro l
      simp only [List.foldl_cons]
      rw [ih]
      by_cases hc : cs.any (fun x => key x = n) = true
      · rw [if_pos hc]
        have hne : cs.reverse.filter (fun a => key a = n) ≠ [] := by
          intro hcon
          have hnil : cs.filter (fun a => key a = n) = [] := by
            rw [List.filter_reverse] at hcon
            cases hh : cs.filter (fun a => key a = n) with
            | nil => rfl
            | cons a as => rw [hh] at hcon; simp at hcon
          rw [List.filter_eq_nil_iff] at hnil
          rcases List.any_eq_true.mp hc with ⟨x, hx, hpx⟩
          exact hnil x hx hpx
        have hany : (c :: cs).any (fun x => key x = n) = true := by
          simp [List.any_cons, hc]
        rw [if_pos hany, List.reverse_cons, List.filter_append,
            take_one_append _ _ hne]
      · have hfnil : cs.filter (fun a => key a = n) = [] := by
          rw [List.filter_eq_nil_iff]
          intro a ha hpa
          exact hc (List.any_eq_true.mpr ⟨a, ha, hpa⟩)
        rw [if_neg hc]
        by_cases hcn : key c = n
        · have hany : (c :: cs).any (fun x => key x = n) = true := by
            simp [List.any_cons, hcn]
          rw [if_pos hany, List.reverse_cons, List.filter_append,
              List.filter_append, List.filter_reverse, hfnil,
              List.reverse_nil, List.nil_append]
          have h1 : (l.filter (fun y => key y ≠ key c)).filter
              (fun a => key a = n) = [] := by
            rw [List.filter_eq_nil_iff]
            intro a ha
            simp only [decide_eq_true_eq]
            intro hpa
            have h2 := List.of_mem_filter ha
            simp only [decide_eq_true_eq] at h2
            exact h2 (hpa.trans hcn.symm)
          rw [h1, List.nil_append]
          simp [List.filter_cons, hcn]
        · have hany : ¬ (c :: cs).any (fun x => key x = n) = true := by
            simp only [List.any_cons, Bool.or_eq_true]
            intro hor
            rcases hor with h1 | h1
            · simp only [decide_eq_true_eq] at h1
              exact hcn h1
            · exact hc h1
          rw [if_neg hany, List.filter_append]
          have h1 : ([c].filter (fun a => key a = n)) = [] := by
            simp [List.filter_cons, hcn]
          rw [h1, List.append_nil]
          exact filter_ne_then_eq key (fun hnc => hcn hnc.symm) l

/-! Bridges between the list lemmas and the span and builder operations. -/

theorem inner_none_iff_not_sampled (s : Span T) :
    s.inner = none ↔ s.is_sampled = false := by
  cases h : s.inner <;> simp [Span.is_sampled, h]

theorem foldl_tag_tags :
    ∀ (cs : List Tag) (o : StartSpanOptions T),
      (cs.foldl (fun o t => o.tag t) o).tags = o.tags ++ cs := by
  intro cs
  induction cs with
  | nil => intro o; simp
  | cons c cs ih =>
      intro o
      simp only [List.foldl_cons]
      rw [ih]
      simp [StartSpanOptions.tag]

theorem foldl_set_tag_inner :
    ∀ (cs : List Tag) (i : SpanInner T),
      cs.foldl (fun s t => s.set_tag t) (Span.mk (some i))
        = Span.mk (some { i with
            tags := cs.foldl
              (fun acc x => acc.filter (fun y => y.name ≠ x.name) ++ [x])
              i.tags }) := by
  intro cs
  induction cs with
  | nil => intro i; rfl
  | cons c cs ih =>
      intro i
      simp only [List.foldl_cons]
      exact ih { i with tags := i.tags.filter (fun y => y.name ≠ c.name) ++ [c] }

theorem foldl_set_baggage_inner :
    ∀ (cs : List BaggageItem) (i : SpanInner T),
      cs.foldl (fun s b => s.set_baggage_item b) (Span.mk (some i))
        = Span.mk (some { i with
            context := { i.context with
              baggage_items := cs.foldl
                (fun acc x => acc.filter (fun y => y.name ≠ x.name) ++ [x])
                i.context.baggage_items } }) := by
  intro cs
  induction cs with
  | nil => intro i; rfl
  | cons c cs ih =>
      intro i
      simp only [List.foldl_cons]
      exact ih { i with
        context := { i.context with
          baggage_items :=
            i.context.baggage_items.filter (fun y => y.name ≠ c.name) ++ [c] } }

theorem start_is_sampled (o : StartSpanOptions T) (fc : CandidateSpan T → T)
    (sampler : CandidateSpan T → Bool) (now : Nat) :
    (o.start fc sampler now).is_sampled = (o.normalize).is_sampled sampler := by
  simp only [StartSpanOptions.start]
  by_cases h : (o.normalize).is_sampled sampler = true
  · rw [if_pos h, h]
    rfl
  · simp only [Bool.not_eq_true] at h
    rw [h, if_neg Bool.false_ne_true]
    rfl

theorem start_with_context_is_sampled (o : StartSpanOptions T) (ctx : T)
    (sampler : CandidateSpan T → Bool) (now : Nat) :
    (o.start_with_context ctx sampler now).is_sampled
      = (o.normalize).is_sampled sampler := by
  simp only [StartSpanOptions.start_with_context]
  by_cases h : (o.normalize).is_sampled sampler = true
  · rw [if_pos h, h]
    rfl
  · simp only [Bool.not_eq_true] at h
    rw [h, if_neg Bool.false_ne_true]
    rfl

theorem start_eq_of_sampled (o : StartSpanOptions T)
    (fc : CandidateSpan T → T) (sampler : CandidateSpan T → Bool) (now : Nat)
    (h : (o.normalize).is_sampled sampler = true) :
    o.start fc sampler now
      = Span.new (o.normalize).operation_name
          ((o.normalize).start_time.getD now) (o.normalize).references
          (o.normalize).tags (fc (o.normalize).span)
          (o.normalize).baggage_items := by
  simp only [StartSpanOptions.start]
  rw [if_pos h]

theorem start_with_context_eq_of_sampled (o : StartSpanOptions T) (ctx : T)
    (sampler : CandidateSpan T → Bool) (now : Nat)
    (h : (o.normalize).is_sampled sampler = true) :
    o.start_with_context ctx sampler now
      = Span.new (o.normalize).operation_name
          ((o.normalize).start_time.getD now) (o.normalize).references
          (o.normalize).tags ctx (o.normalize).baggage_items := by
  simp only [StartSpanOptions.start_with_context]
  rw [if_pos h]

theorem is_sampled_normalize_of_priority (o : StartSpanOptions T) (t : Tag)
    (n : Int) (hmem : t ∈ (o.normalize).tags)
    (hname : t.name = "sampling.priority") (hval : t.value = TagValue.int n)
    (sampler : CandidateSpan T → Bool) :
    (o.normalize).is_sampled sampler = decide (0 < n) := by
  have hfind : ((o.normalize).tags).find?
      (fun a => a.name = "sampling.priority") = some t := by
    have h := find_eq_of_mem_normalizeByKey Tag.name hmem
    rw [hname] at h
    exact h
  unfold StartSpanOptions.is_sampled
  rw [hfind, Option.map_some', hval]

theorem find_priority_normalize (o : StartSpanOptions T) (t : Tag)
    (hlast : o.tags.reverse.find?
      (fun a => a.name = "sampling.priority") = some t) :
    ((o.normalize).tags).find? (fun a => a.name = "sampling.priority")
      = some t := by
  have h := find_normalizeByKey Tag.name "sampling.priority" o.tags
  exact h.trans hlast

/-! Helper lemmas for the text-map carrier round trip. -/

theorem mk_data (s : String) : String.mk s.data = s := by
  cases s
  rfl

theorem bagKey_inj {a b : String} (h : bagKey a = bagKey b) : a = b := by
  unfold bagKey at h
  have hd : bagNs.data ++ a.data = bagNs.data ++ b.data := congrArg String.data h
  exact data_inj (List.append_cancel_left hd)

theorem bagKeyInv_bagKey (n : String) : bagKeyInv (bagKey n) = some n := by
  unfold bagKeyInv bagKey
  rw [show (String.mk (bagNs.data ++ n.data)).data = bagNs.data ++ n.data from
        rfl,
      List.take_left, List.drop_left, if_pos rfl, mk_data]

theorem bagKeyInv_stateKey : bagKeyInv stateKey = none := by decide

theorem bagKey_ne_stateKey (n : String) : bagKey n ≠ stateKey := by
  intro h
  have hd : (bagNs.data ++ n.data).take bagNs.data.length
      = stateKey.data.take bagNs.data.length := by
    rw [show bagNs.data ++ n.data = (bagKey n).data from rfl, h]
  rw [List.take_left] at hd
  exact absurd hd (by decide)

theorem tmSet_not_mem (c : List (String × String)) (k v : String)
    (h : c.any (fun p => p.1 = k) = false) : tmSet c k v = c ++ [(k, v)] := by
  unfold tmSet
  rw [if_neg (by rw [h]; exact Bool.false_ne_true)]

theorem foldl_tmSet_eq :
    ∀ (items : List BaggageItem) (acc : List (String × String)),
      uniqueNames items →
      (∀ b ∈ items, acc.any (fun p => p.1 = bagKey b.name) = false) →
      items.foldl (fun c item => tmSet c (bagKey item.name) item.value) acc
        = acc ++ items.map (fun b => (bagKey b.name, b.value)) := by
  intro items
  induction items with
  | nil => intro acc _ _; simp
  | cons b items ih =>
      intro acc hu hacc
      rcases List.pairwise_cons.mp hu with ⟨hb, hu2⟩
      simp only [List.foldl_cons]
      rw [tmSet_not_mem _ _ _ (hacc b (List.mem_cons.mpr (Or.inl rfl)))]
      rw [ih (acc ++ [(bagKey b.name, b.value)]) hu2 ?_]
      · simp
      · intro b2 hb2
        rw [List.any_append, hacc b2 (List.mem_cons.mpr (Or.inr hb2))]
        simp only [Bool.false_or, List.any_cons, List.any_nil, Bool.or_false]
        simp only [decide_eq_false_iff_not]
        intro hc
        exact hb b2 hb2 (bagKey_inj hc)

theorem inject_to_text_map_eq (codec : TextMapCodec T) (ctx : SpanContext T)
    (hnames : uniqueNames ctx.baggage_items) :
    ctx.inject_to_text_map codec []
      = (stateKey, codec.encode ctx.state)
          :: ctx.baggage_items.map (fun b => (bagKey b.name, b.value)) := by
  unfold SpanContext.inject_to_text_map
  rw [show tmSet [] stateKey (codec.encode ctx.state)
        = [(stateKey, codec.encode ctx.state)] from rfl]
  rw [foldl_tmSet_eq ctx.baggage_items _ hnames ?_]
  · rfl
  · intro b _
    simp only [List.any_cons, List.any_nil, Bool.or_false]
    simp only [decide_eq_false_iff_not]
    intro hc
    exact bagKey_ne_stateKey b.name hc.symm

theorem filterMap_bag_pairs :
    ∀ items : List BaggageItem,
      (items.map (fun b => (bagKey b.name, b.value))).filterMap
          (fun p => (bagKeyInv p.1).map (fun n => BaggageItem.mk n p.2))
        = items := by
  intro items
  induction items with
  | nil => rfl
  | cons b bs ih =>
      simp only [List.map_cons, List.filterMap_cons, bagKeyInv_bagKey,
        Option.map_some']
      rw [ih]

/-! The claims. -/

/-- C1: relinquishing an active Span constructs exactly one FinishedSpan from
the current inner state, with the finish time defaulting to now when
set_finish_time was never called, and appends it to the delivery channel; a
delivery failure (receiver gone, channel closed) is swallowed, leaving the
channel unchanged instead of propagating an error; dropping a disabled Span
performs no action and delivers nothing. -/
theorem drop_finalization (s : Span T) (ch : Channel T) (now : Nat) :
    (∀ i, s.inner = some i → ch.closed = false →
        s.drop now ch = { ch with msgs := ch.msgs ++ [FinishedSpan.ofInner now i] })
    ∧ (∀ i, s.inner = some i → ch.closed = true → s.drop now ch = ch)
    ∧ (∀ i, s.inner = some i → i.finish_time = none →
        (FinishedSpan.ofInner now i).finish_time = now)
    ∧ (∀ i t, s.inner = some i → i.finish_time = some t →
        (FinishedSpan.ofInner now i).finish_time = t)
    ∧ (s.inner = none → s.drop now ch = ch) := by
  refine ⟨?_, ?_, ?_, ?_, ?_⟩
  · intro i hi hcl
    simp [Span.drop, hi, Channel.send, hcl]
  · intro i hi hcl
    simp [Span.drop, hi, Channel.send, hcl]
  · intro i hi hf
    simp [FinishedSpan.ofInner, hf]
  · intro i t hi hf
    simp [FinishedSpan.ofInner, hf]
  · intro h
    simp [Span.drop, h]

/-- Witness for drop_finalization: a concrete active span delivered into an
open channel, the same span dropped into a closed channel, the default finish
time, and a disabled span. -/
theorem drop_finalization_witness :
    (Span.mk (some ⟨"op", 1, none, [], [], [], ⟨(), []⟩⟩)).drop 7
        (Channel.mk [] false)
      = Channel.mk [FinishedSpan.ofInner 7 ⟨"op", 1, none, [], [], [], ⟨(), []⟩⟩]
          false
    ∧ (Span.mk (some ⟨"op", 1, none, [], [], [], ⟨(), []⟩⟩)).drop 7
        (Channel.mk [] true)
      = Channel.mk [] true
    ∧ (FinishedSpan.ofInner 7
        (⟨"op", 1, none, [], [], [], ⟨(), []⟩⟩ : SpanInner Unit)).finish_time = 7
    ∧ (Span.mk (none : Option (SpanInner Unit))).drop 7 (Channel.mk [] false)
      = Channel.mk [] false := by
  refine ⟨?_, ?_, ?_, ?_⟩
  · exact ((drop_finalization (Span.mk (some ⟨"op", 1, none, [], [], [], ⟨(), []⟩⟩))
      (Channel.mk [] false) 7).1 _ rfl rfl).trans (by rfl)
  · exact (drop_finalization (Span.mk (some ⟨"op", 1, none, [], [], [], ⟨(), []⟩⟩))
      (Channel.mk [] true) 7).2.1 _ rfl rfl
  · exact (drop_finalization (Span.mk (some ⟨"op", 1, none, [], [], [], ⟨(), []⟩⟩))
      (Channel.mk [] false) 7).2.2.1 _ rfl rfl
  · exact (drop_finalization (Span.mk (none : Option (SpanInner Unit)))
      (Channel.mk [] false) 7).2.2.2.2 rfl

/-- C4: on a disabled Span every mutating operation is a no-op (hence so is
every sequence of them), context and get_baggage_item return nothing,
is_sampled is false, and no FinishedSpan is delivered when the span goes out
of use after any sequence of operations. -/
theorem disabled_span_noop (s : Span T) (h : s.inner = none) :
    (∀ n, s.set_operation_name n = s)
    ∧ (∀ t, s.set_finish_time t = s)
    ∧ (∀ t, s.set_tag t = s)
    ∧ (∀ b, s.set_baggage_item b = s)
    ∧ (∀ l, s.log l = s)
    ∧ s.context = none
    ∧ (∀ name, s.get_baggage_item name = none)
    ∧ s.is_sampled = false
    ∧ (∀ ops, applySpanOps ops s = s)
    ∧ (∀ ops now ch, (applySpanOps ops s).drop now ch = ch) := by
  obtain ⟨inner⟩ := s
  simp only at h
  subst h
  have hops : ∀ ops, applySpanOps ops (⟨none⟩ : Span T) = ⟨none⟩ := by
    intro ops
    induction ops with
    | nil => rfl
    | cons op ops ih =>
        show applySpanOps ops (applySpanOp op ⟨none⟩) = ⟨none⟩
        have hop : applySpanOp op (⟨none⟩ : Span T) = ⟨none⟩ := by
          cases op <;> rfl
        rw [hop]
        exact ih

  refine ⟨fun n => rfl, fun t => rfl, fun t => rfl, fun b => rfl, ?_,
    rfl, fun name => rfl, rfl, hops, ?_⟩
  · intro l
    cases l <;> rfl
  · intro ops now ch
    rw [hops ops]
    rfl

/-- Witness for disabled_span_noop: concrete operation sequences on a
concrete disabled span leave it disabled and deliver nothing on drop. -/
theorem disabled_span_noop_witness :
    applySpanOps [SpanOp.setTag ⟨"x", TagValue.int 1⟩,
        SpanOp.setBaggageItem ⟨"b", "2"⟩, SpanOp.logOp none]
        (⟨none⟩ : Span Unit)
      = ⟨none⟩
    ∧ (applySpanOps [SpanOp.setTag ⟨"x", TagValue.int 1⟩]
        (⟨none⟩ : Span Unit)).drop 3 (Channel.mk [] false)
      = Channel.mk [] false
    ∧ (⟨none⟩ : Span Unit).context = none
    ∧ (⟨none⟩ : Span Unit).is_sampled = false :=
  ⟨(disabled_span_noop (⟨none⟩ : Span Unit) rfl).2.2.2.2.2.2.2.2.1 _,
   (disabled_span_noop (⟨none⟩ : Span Unit) rfl).2.2.2.2.2.2.2.2.2 _ 3 _,
   (disabled_span_noop (⟨none⟩ : Span Unit) rfl).2.2.2.2.2.1,
   (disabled_span_noop (⟨none⟩ : Span Unit) rfl).2.2.2.2.2.2.2.1⟩

/-- C9: configuring a builder (tags, references, start time) never touches
the delivery channel, so discarding a builder without calling start or
start_with_context has no side effects: no FinishedSpan is ever produced for
an un-finalized builder. -/
theorem builder_discard_no_effect (ops : List (BuilderOp T))
    (o : StartSpanOptions T) (ch : Channel T) :
    (runBuilder ops o ch).2 = ch ∧ (runBuilder ops o ch).2.msgs = ch.msgs := by
  have h : ∀ (ops : List (BuilderOp T)) (st : StartSpanOptions T × Channel T),
      (ops.foldl (fun st op => applyBuilderOp op st) st).2 = st.2 := by
    intro ops
    induction ops with
    | nil => intro st; rfl
    | cons op ops ih =>
        intro st
        simp only [List.foldl_cons]
        rw [ih]
        cases op <;> rfl
  exact ⟨h ops (o, ch), congrArg Channel.msgs (h ops (o, ch))⟩

/-- C5: child_of and follows_from with no context (in particular the context
of a disabled span) leave the builder unchanged; with a context they append
exactly one ChildOf / FollowsFrom reference holding the context state and
extend the pending baggage with the entire baggage of the referenced context,
cumulatively across references, with name conflicts resolved by the
last-applied-wins dedup rule at normalization. -/
theorem child_references (o : StartSpanOptions T) :
    (o.child_of none = o ∧ o.follows_from none = o)
    ∧ (∀ s : Span T, s.inner = none →
        o.child_of s.context = o ∧ o.follows_from s.context = o)
    ∧ (∀ ctx : SpanContext T,
        (o.child_of (some ctx)).references
            = o.references ++ [SpanReference.childOf ctx.state]
        ∧ (o.child_of (some ctx)).baggage_items
            = o.baggage_items ++ ctx.baggage_items
        ∧ (o.child_of (some ctx)).tags = o.tags
        ∧ (o.child_of (some ctx)).operation_name = o.operation_name
        ∧ (o.child_of (some ctx)).start_time = o.start_time
        ∧ (o.follows_from (some ctx)).references
            = o.references ++ [SpanReference.followsFrom ctx.state]
        ∧ (o.follows_from (some ctx)).baggage_items
            = o.baggage_items ++ ctx.baggage_items)
    ∧ (∀ (c1 c2 : SpanContext T) (n : String),
        (((o.child_of (some c1)).follows_from (some c2)).normalize).baggage_items.filter
            (fun a => a.name = n)
          = (((o.baggage_items ++ c1.baggage_items
                ++ c2.baggage_items).reverse).find?
              (fun a => a.name = n)).toList) := by
  refine ⟨⟨rfl, rfl⟩, ?_, ?_, ?_⟩
  · intro s h
    have hc : s.context = none := by simp [Span.context, h]
    rw [hc]
    exact ⟨rfl, rfl⟩
  · intro ctx
    exact ⟨rfl, rfl, rfl, rfl, rfl, rfl, rfl⟩
  · intro c1 c2 n
    have h1 : ((o.child_of (some c1)).follows_from (some c2)).baggage_items
        = o.baggage_items ++ c1.baggage_items ++ c2.baggage_items := rfl
    have h2 : (((o.child_of (some c1)).follows_from (some c2)).normalize).baggage_items
        = normalizeByKey BaggageItem.name
            ((o.child_of (some c1)).follows_from (some c2)).baggage_items := rfl
    rw [h2, h1, filter_normalizeByKey, take_one_eq_toList_find]

/-- Witness for child_references: a disabled span adds nothing; a context
adds one reference and its whole baggage; the later of two conflicting
references wins after normalization. -/
theorem child_references_witness :
    (StartSpanOptions.new Unit "w").child_of (⟨none⟩ : Span Unit).context
      = StartSpanOptions.new Unit "w"
    ∧ ((StartSpanOptions.new Unit "w").child_of
        (some ⟨(), [⟨"u", "1"⟩]⟩)).baggage_items = [⟨"u", "1"⟩]
    ∧ ((StartSpanOptions.new Unit "w").child_of
        (some ⟨(), [⟨"u", "1"⟩]⟩)).references = [SpanReference.childOf ()]
    ∧ ((((StartSpanOptions.new Unit "w").child_of
          (some ⟨(), [⟨"u", "1"⟩]⟩)).follows_from
          (some ⟨(), [⟨"u", "2"⟩]⟩)).normalize).baggage_items.filter
        (fun a => a.name = "u") = [⟨"u", "2"⟩] := by
  refine ⟨?_, ?_, ?_, ?_⟩
  · exact ((child_references (StartSpanOptions.new Unit "w")).2.1
      (⟨none⟩ : Span Unit) rfl).1
  · exact (((child_references (StartSpanOptions.new Unit "w")).2.2.1
      ⟨(), [⟨"u", "1"⟩]⟩).2.1).trans (by decide)
  · exact (((child_references (StartSpanOptions.new Unit "w")).2.2.1
      ⟨(), [⟨"u", "1"⟩]⟩).1).trans (by decide)
  · exact ((child_references (StartSpanOptions.new Unit "w")).2.2.2
      ⟨(), [⟨"u", "1"⟩]⟩ ⟨(), [⟨"u", "2"⟩]⟩ "u").trans (by decide)

/-- C6 counterexample: the claim says baggage_items are always stored sorted
by name and that every mutation through set_baggage_item re-establishes this
invariant; but set_baggage_item appends the new item at the end, so a span
activated with baggage names a, c mutated with name b stores a, c, b, which
is not sorted by name. -/
theorem set_baggage_item_breaks_sorted :
    ((((StartSpanOptions.new Unit "op").child_of
          (some ⟨(), [⟨"a", "1"⟩, ⟨"c", "2"⟩]⟩)).start
          (fun _ => ()) (fun _ => true) 0).set_baggage_item
        ⟨"b", "3"⟩).context
      = some ⟨(), [⟨"a", "1"⟩, ⟨"c", "2"⟩, ⟨"b", "3"⟩]⟩
    ∧ ¬ sortedUniqueByName [⟨"a", "1"⟩, ⟨"c", "2"⟩, ⟨"b", "3"⟩] := by
  constructor
  · decide
  · unfold sortedUniqueByName
    decide

/-- C6 amended: the baggage of a span context is strictly sorted by name
(sorted with duplicates removed, keeping the last-set value) as constructed
at span activation by start and start_with_context; the baggage mutation
set_baggage_item re-establishes only the name-uniqueness invariant — it
removes the entry of equal name and appends the new item at the end — and
does not keep the list sorted. -/
theorem baggage_invariant_amended :
    (∀ (o : StartSpanOptions T) (fc : CandidateSpan T → T)
        (sampler : CandidateSpan T → Bool) (now : Nat) (i : SpanInner T),
        (o.start fc sampler now).inner = some i →
        sortedUniqueByName i.context.baggage_items)
    ∧ (∀ (o : StartSpanOptions T) (ctx : T)
        (sampler : CandidateSpan T → Bool) (now : Nat) (i : SpanInner T),
        (o.start_with_context ctx sampler now).inner = some i →
        sortedUniqueByName i.context.baggage_items)
    ∧ (∀ (s : Span T) (i : SpanInner T) (b : BaggageItem), s.inner = some i →
        uniqueNames i.context.baggage_items →
        ∃ j, (s.set_baggage_item b).inner = some j
          ∧ j.context.baggage_items
              = i.context.baggage_items.filter (fun x => x.name ≠ b.name) ++ [b]
          ∧ uniqueNames j.context.baggage_items) := by
  have hupsert : ∀ (l : List BaggageItem) (b : BaggageItem),
      List.Pairwise (fun a b => a.name ≠ b.name) l →
      List.Pairwise (fun a b => a.name ≠ b.name)
        (l.filter (fun x => x.name ≠ b.name) ++ [b]) := by
    intro l b hl
    rw [List.pairwise_append]
    refine ⟨hl.filter _, List.pairwise_singleton _ _, ?_⟩
    intro a ha b2 hb2
    have h1 := List.of_mem_filter ha
    simp only [decide_eq_true_eq] at h1
    rw [List.mem_singleton.mp hb2]
    exact h1
  refine ⟨?_, ?_, ?_⟩
  · intro o fc sampler now i h
    by_cases hs : (o.normalize).is_sampled sampler = true
    · rw [start_eq_of_sampled o fc sampler now hs] at h
      simp only [Span.new] at h
      have hi := (Option.some.injEq _ _).mp h
      rw [← hi]
      exact strict_normalizeByKey BaggageItem.name o.baggage_items
    · simp only [Bool.not_eq_true] at hs
      rw [show o.start fc sampler now = ⟨none⟩ from by
            simp only [StartSpanOptions.start]
            rw [hs, if_neg Bool.false_ne_true]] at h
      cases h
  · intro o ctx sampler now i h
    by_cases hs : (o.normalize).is_sampled sampler = true
    · rw [start_with_context_eq_of_sampled o ctx sampler now hs] at h
      simp only [Span.new] at h
      have hi := (Option.some.injEq _ _).mp h
      rw [← hi]
      exact strict_normalizeByKey BaggageItem.name o.baggage_items
    · simp only [Bool.not_eq_true] at hs
      rw [show o.start_with_context ctx sampler now = ⟨none⟩ from by
            simp only [StartSpanOptions.start_with_context]
            rw [hs, if_neg Bool.false_ne_true]] at h
      cases h
  · intro s i b h hu
    obtain ⟨inner⟩ := s
    simp only at h
    subst h
    exact ⟨_, rfl, rfl, hupsert _ b hu⟩

/-- Witness for baggage_invariant_amended: a concrete sampled start yields
strictly sorted baggage, and a concrete set_baggage_item keeps names unique
while appending at the end. -/
theorem baggage_invariant_amended_witness :
    sortedUniqueByName ([⟨"a", "1"⟩, ⟨"c", "2"⟩] : List BaggageItem)
    ∧ ∃ j, ((Span.new "op" 0 ([] : List (SpanReference Unit)) [] ()
          [⟨"a", "1"⟩, ⟨"c", "2"⟩]).set_baggage_item ⟨"b", "3"⟩).inner = some j
        ∧ j.context.baggage_items = [⟨"a", "1"⟩, ⟨"c", "2"⟩, ⟨"b", "3"⟩]
        ∧ uniqueNames j.context.baggage_items := by
  constructor
  · exact (baggage_invariant_amended (T := Unit)).1
      ((StartSpanOptions.new Unit "op").child_of
        (some ⟨(), [⟨"c", "2"⟩, ⟨"a", "1"⟩]⟩))
      (fun _ => ()) (fun _ => true) 0
      ⟨"op", 0, none, [SpanReference.childOf ()], [], [],
        ⟨(), [⟨"a", "1"⟩, ⟨"c", "2"⟩]⟩⟩ (by decide)
  · obtain ⟨j, hj1, hj2, hj3⟩ := (baggage_invariant_amended (T := Unit)).2.2
      (Span.new "op" 0 ([] : List (SpanReference Unit)) [] ()
        [⟨"a", "1"⟩, ⟨"c", "2"⟩]) _ ⟨"b", "3"⟩ rfl
      (by unfold uniqueNames; decide)
    exact ⟨j, hj1, hj2.trans (by decide), hj3⟩

/-- C2: last call wins for every sequence of tag-setting and baggage-setting
calls.  For the builder, the tags accumulated by tag calls are normalized at
finalization so that each name keeps exactly the entry of its last call; on an
active span, iterated set_tag and set_baggage_item leave exactly one entry
per called name, holding the value of the last call for that name, and leave
entries of uncalled names untouched. -/
theorem last_call_wins (T : Type) :
    (∀ (cs : List Tag) (opname n : String),
        ((cs.foldl (fun o t => o.tag t)
            (StartSpanOptions.new T opname)).normalize).tags.filter
            (fun a => a.name = n)
          = (cs.reverse.find? (fun a => a.name = n)).toList)
    ∧ (∀ (s : Span T) (i : SpanInner T) (cs : List Tag) (n : String),
        s.inner = some i →
        ∃ j, (cs.foldl (fun s t => s.set_tag t) s).inner = some j
          ∧ j.tags.filter (fun a => a.name = n)
              = (if cs.any (fun t => t.name = n)
                 then (cs.reverse.find? (fun a => a.name = n)).toList
                 else i.tags.filter (fun a => a.name = n)))
    ∧ (∀ (s : Span T) (i : SpanInner T) (cs : List BaggageItem) (n : String),
        s.inner = some i →
        ∃ j, (cs.foldl (fun s b => s.set_baggage_item b) s).inner = some j
          ∧ j.context.baggage_items.filter (fun a => a.name = n)
              = (if cs.any (fun b => b.name = n)
                 then (cs.reverse.find? (fun a => a.name = n)).toList
                 else i.context.baggage_items.filter (fun a => a.name = n))) := by
  refine ⟨?_, ?_, ?_⟩
  · intro cs opname n
    have h1 : (cs.foldl (fun o t => o.tag t)
        (StartSpanOptions.new T opname)).tags = cs := by
      rw [foldl_tag_tags]
      rfl
    have h2 : ((cs.foldl (fun o t => o.tag t)
          (StartSpanOptions.new T opname)).normalize).tags
        = normalizeByKey Tag.name cs := by
      rw [show ((cs.foldl (fun o t => o.tag t)
          (StartSpanOptions.new T opname)).normalize).tags
          = normalizeByKey Tag.name (cs.foldl (fun o t => o.tag t)
            (StartSpanOptions.new T opname)).tags from rfl, h1]
    rw [h2, filter_normalizeByKey, take_one_eq_toList_find]
  · intro s i cs n h
    obtain ⟨inner⟩ := s
    simp only at h
    subst h
    rw [foldl_set_tag_inner]
    refine ⟨_, rfl, ?_⟩
    have h1 := filter_foldl_upsert Tag.name n cs i.tags
    rw [h1]
    by_cases hany : cs.any (fun t => t.name = n) = true
    · rw [if_pos hany, if_pos hany, take_one_eq_toList_find]
    · rw [if_neg hany, if_neg hany]
  · intro s i cs n h
    obtain ⟨inner⟩ := s
    simp only at h
    subst h
    rw [foldl_set_baggage_inner]
    refine ⟨_, rfl, ?_⟩
    have h1 := filter_foldl_upsert BaggageItem.name n cs i.context.baggage_items
    rw [h1]
    by_cases hany : cs.any (fun b => b.name = n) = true
    · rw [if_pos hany, if_pos hany, take_one_eq_toList_find]
    · rw [if_neg hany, if_neg hany]

/-- Witness for last_call_wins at the [a, b, a] instance of the claim, for
builder tags, span tags and span baggage. -/
theorem last_call_wins_witness :
    ((([⟨"a", TagValue.int 1⟩, ⟨"b", TagValue.int 2⟩,
          ⟨"a", TagValue.int 3⟩] : List Tag).foldl (fun o t => o.tag t)
        (StartSpanOptions.new Unit "op")).normalize).tags.filter
        (fun a => a.name = "a")
      = [⟨"a", TagValue.int 3⟩]
    ∧ ((([⟨"a", TagValue.int 1⟩, ⟨"b", TagValue.int 2⟩,
          ⟨"a", TagValue.int 3⟩] : List Tag).foldl (fun o t => o.tag t)
        (StartSpanOptions.new Unit "op")).normalize).tags.filter
        (fun a => a.name = "b")
      = [⟨"b", TagValue.int 2⟩]
    ∧ (∃ j, (([⟨"a", TagValue.int 1⟩, ⟨"b", TagValue.int 2⟩,
          ⟨"a", TagValue.int 3⟩] : List Tag).foldl (fun s t => s.set_tag t)
          (Span.new "op" 0 ([] : List (SpanReference Unit)) [] () [])).inner
            = some j
        ∧ j.tags.filter (fun a => a.name = "a") = [⟨"a", TagValue.int 3⟩])
    ∧ (∃ j, (([⟨"u", "1"⟩, ⟨"v", "2"⟩, ⟨"u", "3"⟩] : List BaggageItem).foldl
          (fun s b => s.set_baggage_item b)
          (Span.new "op" 0 ([] : List (SpanReference Unit)) [] () [])).inner
            = some j
        ∧ j.context.baggage_items.filter (fun a => a.name = "u")
            = [⟨"u", "3"⟩]) := by
  refine ⟨?_, ?_, ?_, ?_⟩
  · exact ((last_call_wins Unit).1 _ "op" "a").trans (by decide)
  · exact ((last_call_wins Unit).1 _ "op" "b").trans (by decide)
  · obtain ⟨j, hj1, hj2⟩ := (last_call_wins Unit).2.1
      (Span.new "op" 0 ([] : List (SpanReference Unit)) [] () []) _
      [⟨"a", TagValue.int 1⟩, ⟨"b", TagValue.int 2⟩, ⟨"a", TagValue.int 3⟩]
      "a" rfl
    exact ⟨j, hj1, hj2.trans (by decide)⟩
  · obtain ⟨j, hj1, hj2⟩ := (last_call_wins Unit).2.2
      (Span.new "op" 0 ([] : List (SpanReference Unit)) [] () []) _
      [⟨"u", "1"⟩, ⟨"v", "2"⟩, ⟨"u", "3"⟩] "u" rfl
    exact ⟨j, hj1, hj2.trans (by decide)⟩

/-- C3: when the normalized tags hold a sampling.priority tag with Integer
value n, start and start_with_context both produce an active (sampled) span
iff n > 0 and a disabled span iff n ≤ 0, for every pluggable sampler (so the
sampler is never consulted), and the override is evaluated on the explicit
context path as well. -/
theorem sampling_priority_override (o : StartSpanOptions T) (t : Tag) (n : Int)
    (hmem : t ∈ (o.normalize).tags) (hname : t.name = "sampling.priority")
    (hval : t.value = TagValue.int n) :
    ∀ (fc : CandidateSpan T → T) (sampler : CandidateSpan T → Bool) (ctx : T)
      (now : Nat),
      (o.start fc sampler now).is_sampled = decide (0 < n)
      ∧ (o.start_with_context ctx sampler now).is_sampled = decide (0 < n)
      ∧ ((o.start fc sampler now).inner = none ↔ n ≤ 0)
      ∧ ((o.start_with_context ctx sampler now).inner = none ↔ n ≤ 0) := by
  intro fc sampler ctx now
  have hs := is_sampled_normalize_of_priority o t n hmem hname hval sampler
  have h1 := (start_is_sampled o fc sampler now).trans hs
  have h2 := (start_with_context_is_sampled o ctx sampler now).trans hs
  refine ⟨h1, h2, ?_, ?_⟩
  · rw [inner_none_iff_not_sampled, h1]
    simp [not_lt]
  · rw [inner_none_iff_not_sampled, h2]
    simp [not_lt]

/-- Witness for sampling_priority_override: priority 3 forces sampling with a
sampler that always rejects; priority 0 forces a disabled span on the
explicit-context path with a sampler that always accepts. -/
theorem sampling_priority_override_witness :
    (((StartSpanOptions.new Unit "w").tag
        ⟨"sampling.priority", TagValue.int 3⟩).start (fun _ => ())
        (fun _ => false) 0).is_sampled = true
    ∧ (((StartSpanOptions.new Unit "w").tag
        ⟨"sampling.priority", TagValue.int 0⟩).start_with_context ()
        (fun _ => true) 0).inner = none := by
  constructor
  · exact ((sampling_priority_override
      ((StartSpanOptions.new Unit "w").tag
        ⟨"sampling.priority", TagValue.int 3⟩)
      ⟨"sampling.priority", TagValue.int 3⟩ 3 (by decide) rfl rfl
      (fun _ => ()) (fun _ => false) () 0).1).trans (by decide)
  · exact ((sampling_priority_override
      ((StartSpanOptions.new Unit "w").tag
        ⟨"sampling.priority", TagValue.int 0⟩)
      ⟨"sampling.priority", TagValue.int 0⟩ 0 (by decide) rfl rfl
      (fun _ => ()) (fun _ => true) () 0).2.2.2).mpr (by decide)

/-- C10: because normalization runs before the sampling decision in start and
start_with_context, only the last tag call named sampling.priority determines
the override: the sampling outcome equals the decision of the last such tag,
for every pluggable sampler. -/
theorem priority_last_call_wins (o : StartSpanOptions T) (t : Tag) (n : Int)
    (hlast : o.tags.reverse.find?
      (fun a => a.name = "sampling.priority") = some t)
    (hval : t.value = TagValue.int n) :
    ∀ (fc : CandidateSpan T → T) (sampler : CandidateSpan T → Bool) (ctx : T)
      (now : Nat),
      (o.start fc sampler now).is_sampled = decide (0 < n)
      ∧ (o.start_with_context ctx sampler now).is_sampled = decide (0 < n) := by
  intro fc sampler ctx now
  have hfind := find_priority_normalize o t hlast
  have hs : (o.normalize).is_sampled sampler = decide (0 < n) := by
    unfold StartSpanOptions.is_sampled
    rw [hfind, Option.map_some', hval]
  exact ⟨(start_is_sampled o fc sampler now).trans hs,
    (start_with_context_is_sampled o ctx sampler now).trans hs⟩

/-- Witness for priority_last_call_wins: sampling.priority 0 followed by
sampling.priority 5 yields an active span even though the sampler rejects. -/
theorem priority_last_call_wins_witness :
    ((((StartSpanOptions.new Unit "w").tag
        ⟨"sampling.priority", TagValue.int 0⟩).tag
        ⟨"sampling.priority", TagValue.int 5⟩).start (fun _ => ())
        (fun _ => false) 0).is_sampled = true :=
  ((priority_last_call_wins
    (((StartSpanOptions.new Unit "w").tag
      ⟨"sampling.priority", TagValue.int 0⟩).tag
      ⟨"sampling.priority", TagValue.int 5⟩)
    ⟨"sampling.priority", TagValue.int 5⟩ 5 (by decide) rfl
    (fun _ => ()) (fun _ => false) () 0).1).trans (by decide)

/-- C7: a builder named fetch with tag http.method=GET and a child_of
reference to a context with baggage user=42, finalized with a sampling
decision of true, yields an active span whose context baggage is exactly
user=42; after set_baggage_item user=7, dropping the span delivers exactly
one FinishedSpan whose context baggage is exactly user=7. -/
theorem fetch_scenario :
    ((((StartSpanOptions.new Unit "fetch").tag
          ⟨"http.method", TagValue.str "GET"⟩).child_of
          (some ⟨(), [⟨"user", "42"⟩]⟩)).start (fun _ => ()) (fun _ => true)
        5).context
      = some ⟨(), [⟨"user", "42"⟩]⟩
    ∧ (((((StartSpanOptions.new Unit "fetch").tag
            ⟨"http.method", TagValue.str "GET"⟩).child_of
            (some ⟨(), [⟨"user", "42"⟩]⟩)).start (fun _ => ()) (fun _ => true)
          5).set_baggage_item ⟨"user", "7"⟩).drop 9 (Channel.mk [] false)
      = Channel.mk
          [⟨"fetch", 5, 9, [SpanReference.childOf ()],
            [⟨"http.method", TagValue.str "GET"⟩], [],
            ⟨(), [⟨"user", "7"⟩]⟩⟩] false := by
  constructor
  · decide
  · decide

/-- C8: injecting a span context into an empty text-map carrier and
extracting it back yields a present context equal to the original in state
and baggage, whenever the state codec round-trips (baggage names are unique,
as the library maintains them). -/
theorem text_map_roundtrip (codec : TextMapCodec T)
    (hcodec : ∀ t, codec.decode (codec.encode t) = some t)
    (ctx : SpanContext T) (hnames : uniqueNames ctx.baggage_items) :
    SpanContext.extract_from_text_map codec
      (ctx.inject_to_text_map codec []) = some ctx := by
  rw [inject_to_text_map_eq codec ctx hnames]
  unfold SpanContext.extract_from_text_map tmGet
  rw [List.find?_cons_of_pos _ (by simp)]
  simp only [Option.map_some']
  rw [hcodec]
  simp only [Option.map_some']
  have hX : (((stateKey, codec.encode ctx.state)
        :: ctx.baggage_items.map (fun b => (bagKey b.name, b.value))).filterMap
        (fun p => (bagKeyInv p.1).map (fun n => BaggageItem.mk n p.2)))
      = ctx.baggage_items := by
    simp only [List.filterMap_cons, bagKeyInv_stateKey, Option.map_none']
    exact filterMap_bag_pairs ctx.baggage_items
  rw [hX]

/-- Witness for text_map_roundtrip with the identity codec on String states
and a one-item baggage. -/
theorem text_map_roundtrip_witness :
    SpanContext.extract_from_text_map
        (TextMapCodec.mk (fun s => s) (fun s => some s))
        ((SpanContext.mk "trace-7" [⟨"user", "42"⟩]).inject_to_text_map
          (TextMapCodec.mk (fun s => s) (fun s => some s)) [])
      = some (SpanContext.mk "trace-7" [⟨"user", "42"⟩]) :=
  text_map_roundtrip (TextMapCodec.mk (fun s => s) (fun s => some s))
    (fun t => rfl) (SpanContext.mk "trace-7" [⟨"user", "42"⟩])
    (by unfold uniqueNames; decide)

end Rustracing
